import Mathlib

/-!
Verification of the coin-collector client/server synchronization engine.
Server-side definitions embed `server.py` (player state, input ingestion,
physics tick, collision pass, snapshot broadcaster); client-side
definitions embed `client.py` (snapshot buffer interpolation); the
latency queue drain embeds the shared queue pattern of both files.
Floating-point arithmetic is idealized as exact real (server) or
rational (client) arithmetic.
-/

set_option maxHeartbeats 1000000

namespace CoinGame

/-! ## Constants from server.py -/

noncomputable def WORLD_W : ℝ := 800
noncomputable def WORLD_H : ℝ := 600
noncomputable def PLAYER_SPEED : ℝ := 200
noncomputable def PLAYER_RADIUS : ℝ := 16
noncomputable def COIN_RADIUS : ℝ := 10
noncomputable def SERVER_LATENCY : ℝ := 1 / 10

/-! ## Server data model (server.py, class Player and Server fields) -/

/-- Network address, `(ip, port)`. -/
abbrev Addr : Type := String × Nat

/-- Embeds `class Player` of server.py: id, position, velocity, score,
last-input timestamp, lazily learned UDP address. -/
structure Player where
  id : Nat
  x : ℝ
  y : ℝ
  vx : ℝ
  vy : ℝ
  score : Nat
  last_input_time : ℝ
  addr : Option Addr

/-- Embeds the coin dicts `{id, x, y}` held in `Server.coins`. -/
structure Coin where
  id : Nat
  x : ℝ
  y : ℝ

noncomputable instance : DecidableEq Coin := Classical.decEq _

/-- The mutable world state held by `Server`: the players dict (modelled
as a list in iteration order), the coin list, the next coin id, and the
coin spawn timer local to `main_loop`. -/
structure ServerState where
  players : List Player
  coins : List Coin
  coin_next_id : Nat
  coin_spawn_timer : ℝ

/-- Embeds `Player.__init__`: the two `random.uniform` draws are passed
in as parameters `rx`, `ry`. -/
def mkPlayer (pid : Nat) (rx ry : ℝ) : Player :=
  { id := pid, x := rx, y := ry, vx := 0, vy := 0, score := 0,
    last_input_time := 0, addr := none }

/-! ## Input ingestion (server.py, udp_recv_loop lines 128-157) -/

/-- The four boolean directions of an input intent. -/
structure Intent where
  left : Bool
  right : Bool
  up : Bool
  down : Bool
deriving DecidableEq

/-- A decoded inbound message: `type` discriminator, optional `pid`
field, optional `intent` field (absent field modelled as `none`). -/
structure InMsg where
  type : String
  pid : Option Nat
  intent : Option Intent
deriving DecidableEq

/-- `vx` after the two signed unit contributions (lines 144-146). -/
def intentVX (i : Intent) : ℝ :=
  (if i.left then (0 : ℝ) - 1 else 0) + (if i.right then 1 else 0)

/-- `vy` after the two signed unit contributions (lines 147-148). -/
def intentVY (i : Intent) : ℝ :=
  (if i.up then (0 : ℝ) - 1 else 0) + (if i.down then 1 else 0)

/-- Embeds lines 144-155: sum signed unit contributions per axis, take
the magnitude, and if it is positive scale the normalized vector by
`PLAYER_SPEED`, else zero velocity. -/
noncomputable def applyIntent (i : Intent) : ℝ × ℝ :=
  let vx := intentVX i
  let vy := intentVY i
  let mag := Real.sqrt (vx * vx + vy * vy)
  if mag > 0 then (vx / mag * PLAYER_SPEED, vy / mag * PLAYER_SPEED)
  else (0, 0)

/-- The per-player effect of a processed input message (lines 142-156):
store the sender address, set the commanded velocity, stamp the time. -/
noncomputable def updatePlayer (p : Player) (i : Intent) (addr : Addr) (now : ℝ) :
    Player :=
  let v := applyIntent i
  { p with addr := some addr, vx := v.1, vy := v.2, last_input_time := now }

/-- Embeds the body of the inbound drain (lines 129-157): an
undecodable payload (`none`), a non-"input" type, a missing pid, or an
unknown pid leaves the state untouched; otherwise the addressed player
is updated. A missing intent field defaults to the empty dict, i.e. the
all-false intent. -/
noncomputable def apply_input (w : ServerState) (m : Option InMsg) (addr : Addr)
    (now : ℝ) : ServerState :=
  match m with
  | none => w
  | some msg =>
    if msg.type = "input" then
      match msg.pid with
      | none => w
      | some pid =>
        match w.players.find? (fun p => p.id == pid) with
        | none => w
        | some _ =>
          { w with players := w.players.map (fun p =>
              if p.id = pid then
                updatePlayer p (msg.intent.getD ⟨false, false, false, false⟩) addr now
              else p) }
    else w

/-! ## Physics tick (server.py, main_loop lines 174-211) -/

/-- Lines 180-185: integrate one player by dt and clamp to bounds. -/
noncomputable def integrateClamp (p : Player) (dt : ℝ) : Player :=
  let x := p.x + p.vx * dt
  let y := p.y + p.vy * dt
  { p with x := max 10 (min (WORLD_W - 10) x),
           y := max 10 (min (WORLD_H - 10) y) }

/-- Lines 186-194: accumulate the spawn timer; on reaching 2.0 seconds
reset it and append one coin with the next id. The `random.uniform`
draws are passed in as `cx`, `cy`. -/
noncomputable def spawnStep (w : ServerState) (dt cx cy : ℝ) : ServerState :=
  let t := w.coin_spawn_timer + dt
  if t ≥ 2 then
    { w with coin_spawn_timer := 0,
             coins := w.coins ++ [⟨w.coin_next_id, cx, cy⟩],
             coin_next_id := w.coin_next_id + 1 }
  else
    { w with coin_spawn_timer := t }

/-- The collision predicate of line 202: squared distance between
centers at most the squared sum of radii. -/
def Overlaps (p : Player) (c : Coin) : Prop :=
  (c.x - p.x) * (c.x - p.x) + (c.y - p.y) * (c.y - p.y)
    ≤ (PLAYER_RADIUS + COIN_RADIUS) ^ 2

noncomputable instance (p : Player) (c : Coin) : Decidable (Overlaps p c) :=
  Real.decidableLE _ _

/-- Some player of the list overlaps the coin. -/
def Hit (ps : List Player) (c : Coin) : Prop := ∃ p ∈ ps, Overlaps p c

noncomputable instance (ps : List Player) (c : Coin) : Decidable (Hit ps c) :=
  List.decidableBEx _ ps

/-- The inner player loop of lines 199-206 for one coin: the first
overlapping player in iteration order gets one point and the loop
breaks; the returned flag says whether the coin was consumed. -/
noncomputable def collideCoin : List Player → Coin → List Player × Bool
  | [], _ => ([], false)
  | p :: rest, c =>
    if Overlaps p c then
      ({ p with score := p.score + 1 } :: rest, true)
    else
      let r := collideCoin rest c
      (p :: r.1, r.2)

/-- One step of the outer coin loop of lines 198-206, threading the
player list and the `to_remove` accumulator. -/
noncomputable def collisionStep (acc : List Player × List Coin) (c : Coin) :
    List Player × List Coin :=
  let r := collideCoin acc.1 c
  (r.1, if r.2 then acc.2 ++ [c] else acc.2)

/-- Lines 196-210: run the full collision pass over all coins, then
remove the consumed coins (lines 207-210, `list.remove` guarded by
membership is `List.erase`). -/
noncomputable def collisionPass (ps : List Player) (coins : List Coin) :
    List Player × List Coin :=
  let r := coins.foldl collisionStep (ps, [])
  (r.1, r.2.foldl (fun cs c => cs.erase c) coins)

/-- Lines 180-185 over the whole player list. -/
noncomputable def integrateAll (w : ServerState) (dt : ℝ) : ServerState :=
  { w with players := w.players.map (fun p => integrateClamp p dt) }

/-- One iteration of `main_loop` (lines 174-211): integrate and clamp
all players, run the spawn timer, then the collision pass. -/
noncomputable def tick (w : ServerState) (dt cx cy : ℝ) : ServerState :=
  let w1 := integrateAll w dt
  let w2 := spawnStep w1 dt cx cy
  let r := collisionPass w2.players w2.coins
  { w2 with players := r.1, coins := r.2 }

/-- Sum of all player scores. -/
def totalScore (ps : List Player) : Nat := (ps.map Player.score).sum

/-- Position projection: `Overlaps` depends on players only through it. -/
def pos (p : Player) : ℝ × ℝ := (p.x, p.y)

/-! ## Snapshot broadcaster (server.py, broadcaster_loop lines 214-234) -/

/-- A public player record inside a snapshot (line 222). -/
structure PubPlayer where
  x : ℝ
  y : ℝ
  score : Nat

/-- Embeds the snapshot dict built at lines 219-224. -/
structure Snapshot where
  time : ℝ
  players : List (Nat × PubPlayer)
  coins : List Coin

/-- Lines 219-224: capture the authoritative state into a snapshot. -/
noncomputable def takeSnapshot (w : ServerState) (t : ℝ) : Snapshot :=
  { time := t,
    players := w.players.map (fun p => (p.id, ⟨p.x, p.y, p.score⟩)),
    coins := w.coins.map (fun c => ⟨c.id, c.x, c.y⟩) }

/-- An outbound envelope: eligible send time, payload, destination. -/
abbrev OutEnv : Type := ℝ × Snapshot × Addr

/-- Lines 217-230: one broadcaster cycle. Serialize one snapshot, then
for every player whose address is known append one envelope with
eligible time `now + SERVER_LATENCY` to the outbound queue. -/
noncomputable def broadcaster_cycle (w : ServerState) (now : ℝ) (q : List OutEnv) :
    List OutEnv :=
  let snap := takeSnapshot w now
  let send_time := now + SERVER_LATENCY
  w.players.foldl (fun acc p =>
    match p.addr with
    | some a => acc ++ [(send_time, snap, a)]
    | none => acc) q

/-! ## Latency simulation queue drain (server.py lines 128, 161 and
client.py lines 127, 145: `while queue and queue[0][0] <= now: popleft`) -/

/-- Drain all leading envelopes whose eligible time has arrived,
returning (drained, remaining). -/
def drain_due {α β : Type} [LinearOrder α] (q : List (α × β)) (now : α) :
    List (α × β) × List (α × β) :=
  (q.takeWhile (fun e => decide (e.1 ≤ now)),
   q.dropWhile (fun e => decide (e.1 ≤ now)))

/-! ## Client interpolation (client.py, get_interpolated_state lines
168-205).  Client-side floats are idealized as rationals, which keeps
every definition computable. -/

/-- A player entry `{x, y, score}` inside a received snapshot. -/
structure PSnap where
  x : ℚ
  y : ℚ
  score : Int
deriving DecidableEq

/-- A coin entry `{id, x, y}` inside a received snapshot. -/
structure CoinSnap where
  id : Nat
  x : ℚ
  y : ℚ
deriving DecidableEq

/-- A buffered snapshot: timestamp, player dict (association list in
iteration order), coin list. -/
structure Snap where
  time : ℚ
  players : List (Nat × PSnap)
  coins : List CoinSnap
deriving DecidableEq

/-- The scan of lines 179-183: the first adjacent pair `(s0, s1)` with
`s0.time ≤ render_time ≤ s1.time`. -/
def findBracket (rt : ℚ) : List Snap → Option (Snap × Snap)
  | s0 :: s1 :: rest =>
    if s0.time ≤ rt ∧ rt ≤ s1.time then some (s0, s1)
    else findBracket rt (s1 :: rest)
  | _ => none

/-- `s1["players"].get(pid, p0)` without the default: dict lookup. -/
def lookupPid (ps : List (Nat × PSnap)) (pid : Nat) : Option PSnap :=
  (ps.find? (fun e => e.1 == pid)).map Prod.snd

/-- Lines 190-202: the blended player dict for a bracketing pair. -/
def interpPair (s0 s1 : Snap) (rt : ℚ) : List (Nat × PSnap) :=
  let t0 := s0.time
  let t1 := s1.time
  let alpha0 : ℚ := if t1 > t0 then (rt - t0) / (t1 - t0) else 1
  let alpha := max 0 (min 1 alpha0)
  s0.players.map (fun e =>
    let p0 := e.2
    let p1 := (lookupPid s1.players e.1).getD p0
    (e.1, { x := p0.x * (1 - alpha) + p1.x * alpha,
            y := p0.y * (1 - alpha) + p1.y * alpha,
            score := p1.score }))

/-- Lines 168-205: the full interpolator. Empty buffer yields the empty
result; a found bracketing pair yields the blend plus the coins of `s1`;
otherwise the last buffered snapshot is returned verbatim. -/
def get_interpolated_state (snaps : List Snap) (rt : ℚ) :
    List (Nat × PSnap) × List CoinSnap :=
  match snaps.getLast? with
  | none => ([], [])
  | some slast =>
    match findBracket rt snaps with
    | some (s0, s1) => (interpPair s0 s1 rt, s1.coins)
    | none => (slast.players, slast.coins)

/-! ## Concrete fixtures used by witnesses and counterexamples -/

/-- A one-player world. -/
noncomputable def w8 : ServerState := ⟨[mkPlayer 1 100 100], [], 1, 0⟩

/-- A malformed-kind message. -/
def mBad : InMsg := ⟨"ping", none, none⟩

def addrA : Addr := ("10.0.0.1", 5000)
def addrB : Addr := ("10.0.0.2", 6000)

/-- A player that already has a stored address. -/
noncomputable def p9 : Player := { mkPlayer 1 100 100 with addr := some addrA }

/-- A world holding `p9`. -/
noncomputable def w9 : ServerState := ⟨[p9], [], 1, 0⟩

/-- Two players, only the first with a known address. -/
noncomputable def wTwo : ServerState :=
  ⟨[{ mkPlayer 1 100 100 with addr := some addrA }, mkPlayer 2 200 200], [], 1, 0⟩

/-- A coin at (100, 100). -/
noncomputable def cW : Coin := ⟨1, 100, 100⟩

/-- A player far from `cW`. -/
noncomputable def pFar : Player := mkPlayer 1 300 300

/-- A player exactly on `cW`. -/
noncomputable def pNear : Player := mkPlayer 2 100 100

/-- Another player overlapping `cW`. -/
noncomputable def pAlso : Player := mkPlayer 3 105 100

/-- Snapshot at t = 0 with player 1 at x = 0. -/
def snap0Ex : Snap := ⟨0, [(1, ⟨0, 0, 0⟩)], []⟩

/-- Snapshot at t = 1 with player 1 at x = 10, score 5. -/
def snap1Ex : Snap := ⟨1, [(1, ⟨10, 0, 5⟩)], [⟨7, 3, 4⟩]⟩

/-- A lone buffered snapshot. -/
def snapA : Snap := ⟨2, [(3, ⟨1, 2, 4⟩)], [⟨9, 5, 6⟩]⟩

/-! ## Helper lemmas -/

theorem broadcast_foldl (ps : List Player) (st : ℝ) (snap : Snapshot)
    (q : List OutEnv) :
    ps.foldl (fun acc p =>
      match p.addr with
      | some a => acc ++ [(st, snap, a)]
      | none => acc) q
    = q ++ ps.filterMap (fun p => p.addr.map (fun a => (st, snap, a))) := by
  induction ps generalizing q with
  | nil => simp
  | cons p rest ih =>
    cases h : p.addr with
    | none => simp [List.foldl_cons, h, ih]
    | some a => simp [List.foldl_cons, h, ih]

theorem length_filterMap_addr (ps : List Player) (st : ℝ) (snap : Snapshot) :
    (ps.filterMap (fun p => p.addr.map (fun a => ((st, snap, a) : OutEnv)))).length
      = ps.countP (fun p => p.addr.isSome) := by
  induction ps with
  | nil => simp
  | cons p rest ih =>
    cases h : p.addr with
    | none => simp [List.filterMap_cons, List.countP_cons, h, ih]
    | some a => simp [List.filterMap_cons, List.countP_cons, h, ih]

/-! ## Claim theorems -/

/-- C5: after one integration-plus-clamp step the player position lies
within `[10, WORLD_W - 10] × [10, WORLD_H - 10]` (margin 10 on both
axes), for every starting position and velocity and every `dt ≥ 0`; and
a freshly created player, whose uniform draws land in
`[50, extent - 50]`, also starts inside those bounds. -/
theorem position_within_margin (p : Player) (dt : ℝ) (hdt : 0 ≤ dt) :
    (10 ≤ (integrateClamp p dt).x ∧ (integrateClamp p dt).x ≤ WORLD_W - 10 ∧
     10 ≤ (integrateClamp p dt).y ∧ (integrateClamp p dt).y ≤ WORLD_H - 10) ∧
    (∀ (pid : Nat) (rx ry : ℝ), 50 ≤ rx → rx ≤ WORLD_W - 50 →
      50 ≤ ry → ry ≤ WORLD_H - 50 →
      10 ≤ (mkPlayer pid rx ry).x ∧ (mkPlayer pid rx ry).x ≤ WORLD_W - 10 ∧
      10 ≤ (mkPlayer pid rx ry).y ∧ (mkPlayer pid rx ry).y ≤ WORLD_H - 10) := by
  have hx : (integrateClamp p dt).x
      = max 10 (min (WORLD_W - 10) (p.x + p.vx * dt)) := by
    simp [integrateClamp]
  have hy : (integrateClamp p dt).y
      = max 10 (min (WORLD_H - 10) (p.y + p.vy * dt)) := by
    simp [integrateClamp]
  constructor
  · rw [hx, hy]
    refine ⟨le_max_left _ _, ?_, le_max_left _ _, ?_⟩
    · exact max_le (by norm_num [WORLD_W]) (min_le_left _ _)
    · exact max_le (by norm_num [WORLD_H]) (min_le_left _ _)
  · intro pid rx ry h1 h2 h3 h4
    simp only [mkPlayer, WORLD_W, WORLD_H] at *
    exact ⟨by linarith, by linarith, by linarith, by linarith⟩

theorem position_within_margin_witness :
    (0 : ℝ) ≤ 2 ∧
    (10 ≤ (integrateClamp (mkPlayer 1 100 100) 2).x ∧
     (integrateClamp (mkPlayer 1 100 100) 2).x ≤ WORLD_W - 10 ∧
     10 ≤ (integrateClamp (mkPlayer 1 100 100) 2).y ∧
     (integrateClamp (mkPlayer 1 100 100) 2).y ≤ WORLD_H - 10) :=
  ⟨by norm_num, (position_within_margin (mkPlayer 1 100 100) 2 (by norm_num)).1⟩

/-- C6: on a queue whose eligible-times are non-decreasing, a drain at
`now` removes exactly the envelopes with eligible-time at most `now`,
in order, each once; the drained prefix is still time-ordered; every
remaining envelope has eligible-time strictly greater than `now`. -/
theorem drain_due_exact {α β : Type} [LinearOrder α] (q : List (α × β)) (now : α)
    (hsort : q.Pairwise (fun a b => a.1 ≤ b.1)) :
    (drain_due q now).1 = q.filter (fun e => decide (e.1 ≤ now))
    ∧ (drain_due q now).2 = q.filter (fun e => decide (now < e.1))
    ∧ (drain_due q now).1 ++ (drain_due q now).2 = q
    ∧ (drain_due q now).1.Pairwise (fun a b => a.1 ≤ b.1)
    ∧ ∀ e ∈ (drain_due q now).2, now < e.1 := by
  induction q with
  | nil => simp [drain_due]
  | cons e t ih =>
    rcases List.pairwise_cons.mp hsort with ⟨hhead, htail⟩
    obtain ⟨ih1, ih2, ih3, ih4, ih5⟩ := ih htail
    by_cases he : e.1 ≤ now
    · have hnl : ¬ now < e.1 := not_lt.mpr he
      refine ⟨?_, ?_, ?_, ?_, ?_⟩
      · simp only [drain_due, List.takeWhile_cons, List.filter_cons, he,
          decide_True]
        simp only [drain_due] at ih1
        simp [he, ih1]
      · simp only [drain_due, List.dropWhile_cons, List.filter_cons]
        simp only [drain_due] at ih2
        simp [he, hnl, ih2]
      · simp only [drain_due, List.takeWhile_cons, List.dropWhile_cons]
        simp only [drain_due] at ih3
        simp [he, ih3]
      · simp only [drain_due, List.takeWhile_cons]
        simp only [drain_due] at ih1 ih4
        simp only [he, decide_True, if_true]
        rw [List.pairwise_cons]
        refine ⟨?_, by simpa [he] using ih4⟩
        intro x hx
        have : x ∈ t.filter (fun e => decide (e.1 ≤ now)) := by
          rw [← ih1]; simpa [he] using hx
        exact hhead x (List.mem_of_mem_filter this)
      · intro x hx
        simp only [drain_due, List.dropWhile_cons, he, decide_True,
          if_true] at hx
        exact ih5 x (by simpa [drain_due] using hx)
    · have hlt : now < e.1 := not_le.mp he
      have htge : ∀ x ∈ t, ¬ x.1 ≤ now := by
        intro x hx
        exact not_le.mpr (lt_of_lt_of_le hlt (hhead x hx))
      refine ⟨?_, ?_, ?_, ?_, ?_⟩
      · simp only [drain_due, List.takeWhile_cons, List.filter_cons]
        rw [List.filter_eq_nil_iff.mpr (by intro x hx; simpa using htge x hx)]
        simp [he]
      · simp only [drain_due, List.dropWhile_cons, List.filter_cons]
        rw [List.filter_eq_self.mpr
          (by intro x hx; simpa using lt_of_lt_of_le hlt (hhead x hx))]
        simp [he, hlt]
      · simp [drain_due, List.takeWhile_cons, List.dropWhile_cons, he]
      · simp [drain_due, List.takeWhile_cons, he]
      · intro x hx
        simp only [drain_due, List.dropWhile_cons, he, decide_False,
          if_false] at hx
        rcases List.mem_cons.mp (by simpa [drain_due] using hx) with h | h
        · subst h; exact hlt
        · exact lt_of_lt_of_le hlt (hhead x h)

theorem drain_due_exact_witness :
    (([((1 : ℚ), (10 : Nat)), (2, 20), (5, 30)]).Pairwise
      (fun a b => a.1 ≤ b.1))
    ∧ ((drain_due [((1 : ℚ), (10 : Nat)), (2, 20), (5, 30)] 3).1
        = ([((1 : ℚ), (10 : Nat)), (2, 20), (5, 30)]).filter
            (fun e => decide (e.1 ≤ 3))
       ∧ (drain_due [((1 : ℚ), (10 : Nat)), (2, 20), (5, 30)] 3).2
        = ([((1 : ℚ), (10 : Nat)), (2, 20), (5, 30)]).filter
            (fun e => decide ((3 : ℚ) < e.1))
       ∧ (drain_due [((1 : ℚ), (10 : Nat)), (2, 20), (5, 30)] 3).1
          ++ (drain_due [((1 : ℚ), (10 : Nat)), (2, 20), (5, 30)] 3).2
        = [((1 : ℚ), (10 : Nat)), (2, 20), (5, 30)]
       ∧ (drain_due [((1 : ℚ), (10 : Nat)), (2, 20), (5, 30)] 3).1.Pairwise
            (fun a b => a.1 ≤ b.1)
       ∧ ∀ e ∈ (drain_due [((1 : ℚ), (10 : Nat)), (2, 20), (5, 30)] 3).2,
            (3 : ℚ) < e.1) :=
  ⟨by decide, drain_due_exact _ 3 (by decide)⟩

/-- C7: one broadcaster cycle appends to the outbound queue exactly one
envelope per player with a known address — each carrying the captured
snapshot with eligible-time `now + SERVER_LATENCY` — and none for
players with unknown address; with two players of which one has a known
address, exactly one envelope is enqueued. -/
theorem broadcaster_one_envelope_per_known_addr (w : ServerState) (now : ℝ)
    (q : List OutEnv) :
    broadcaster_cycle w now q
      = q ++ w.players.filterMap (fun p => p.addr.map
          (fun a => (now + SERVER_LATENCY, takeSnapshot w now, a)))
    ∧ (broadcaster_cycle w now q).length
      = q.length + w.players.countP (fun p => p.addr.isSome)
    ∧ (broadcaster_cycle wTwo 0 ([] : List OutEnv)).length = 1 := by
  have h1 : broadcaster_cycle w now q
      = q ++ w.players.filterMap (fun p => p.addr.map
          (fun a => (now + SERVER_LATENCY, takeSnapshot w now, a))) := by
    unfold broadcaster_cycle
    exact broadcast_foldl w.players (now + SERVER_LATENCY) (takeSnapshot w now) q
  have h2 : (broadcaster_cycle w now q).length
      = q.length + w.players.countP (fun p => p.addr.isSome) := by
    rw [h1, List.length_append, length_filterMap_addr]
  refine ⟨h1, h2, ?_⟩
  have h3 : broadcaster_cycle wTwo 0 ([] : List OutEnv)
      = [] ++ wTwo.players.filterMap (fun p => p.addr.map
          (fun a => ((0 : ℝ) + SERVER_LATENCY, takeSnapshot wTwo 0, a))) := by
    unfold broadcaster_cycle
    exact broadcast_foldl wTwo.players ((0 : ℝ) + SERVER_LATENCY)
      (takeSnapshot wTwo 0) []
  rw [h3]
  simp [wTwo, mkPlayer]

/-- C8: a drained inbound message that is undecodable, of a kind other
than "input", missing its pid, or addressed to an unknown pid leaves
the whole server state (players and coins alike) unchanged. -/
theorem discard_preserves_state (w : ServerState) (addr : Addr) (now : ℝ) :
    apply_input w none addr now = w
    ∧ (∀ m : InMsg, m.type ≠ "input" → apply_input w (some m) addr now = w)
    ∧ (∀ m : InMsg, m.pid = none → apply_input w (some m) addr now = w)
    ∧ (∀ (m : InMsg) (pid : Nat), m.pid = some pid →
        (∀ p ∈ w.players, p.id ≠ pid) → apply_input w (some m) addr now = w) := by
  refine ⟨rfl, ?_, ?_, ?_⟩
  · intro m hm
    simp [apply_input, hm]
  · intro m hm
    by_cases ht : m.type = "input"
    · simp [apply_input, ht, hm]
    · simp [apply_input, ht]
  · intro m pid hm hp
    have hfind : w.players.find? (fun p => p.id == pid) = none := by
      rw [List.find?_eq_none]
      intro p hpm
      simpa using hp p hpm
    by_cases ht : m.type = "input"
    · simp [apply_input, ht, hm, hfind]
    · simp [apply_input, ht]

theorem discard_preserves_state_witness :
    mBad.type ≠ "input" ∧ apply_input w8 (some mBad) addrA 5 = w8 :=
  ⟨by decide, (discard_preserves_state w8 addrA 5).2.1 mBad (by decide)⟩

/-- The all-false intent (and any intent whose per-axis sums cancel)
produces the exact zero velocity. -/
theorem applyIntent_of_zero_sums (i : Intent) (hx : intentVX i = 0)
    (hy : intentVY i = 0) : applyIntent i = (0, 0) := by
  simp only [applyIntent, hx, hy]
  norm_num

/-- C2 counterexample: the intent with both left and right set has a
direction set, yet the resulting velocity is exactly zero, so its
magnitude is not the speed constant. -/
theorem cancelling_intent_not_at_speed :
    (Intent.mk true true false false).left = true
    ∧ applyIntent ⟨true, true, false, false⟩ = (0, 0)
    ∧ Real.sqrt ((applyIntent ⟨true, true, false, false⟩).1 ^ 2
        + (applyIntent ⟨true, true, false, false⟩).2 ^ 2) ≠ PLAYER_SPEED := by
  have hz : applyIntent ⟨true, true, false, false⟩ = (0, 0) :=
    applyIntent_of_zero_sums _ (by norm_num [intentVX]) (by norm_num [intentVY])
  refine ⟨rfl, hz, ?_⟩
  rw [hz]
  norm_num [PLAYER_SPEED]

/-- C2 amended: whenever the summed per-axis contributions form a
nonzero vector, the resulting velocity has magnitude exactly
`PLAYER_SPEED`; whenever the sums are both zero (the all-false intent,
but also fully cancelling intents) the velocity is exactly zero. -/
theorem velocity_normalization (i : Intent) :
    (¬ (intentVX i = 0 ∧ intentVY i = 0) →
      Real.sqrt ((applyIntent i).1 ^ 2 + (applyIntent i).2 ^ 2) = PLAYER_SPEED)
    ∧ (intentVX i = 0 → intentVY i = 0 → applyIntent i = (0, 0)) := by
  refine ⟨?_, applyIntent_of_zero_sums i⟩
  intro h
  set vx := intentVX i with hvx
  set vy := intentVY i with hvy
  have hs : 0 < vx * vx + vy * vy := by
    rcases not_and_or.mp h with h0 | h0
    · have h1 : 0 < vx * vx := mul_self_pos.mpr h0
      have h2 : 0 ≤ vy * vy := mul_self_nonneg vy
      linarith
    · have h1 : 0 < vy * vy := mul_self_pos.mpr h0
      have h2 : 0 ≤ vx * vx := mul_self_nonneg vx
      linarith
  have hmag : 0 < Real.sqrt (vx * vx + vy * vy) := Real.sqrt_pos.mpr hs
  have happ : applyIntent i
      = (vx / Real.sqrt (vx * vx + vy * vy) * PLAYER_SPEED,
         vy / Real.sqrt (vx * vx + vy * vy) * PLAYER_SPEED) := by
    simp only [applyIntent, ← hvx, ← hvy]
    rw [if_pos hmag]
  rw [happ]
  have hm2 : Real.sqrt (vx * vx + vy * vy) * Real.sqrt (vx * vx + vy * vy)
      = vx * vx + vy * vy := Real.mul_self_sqrt hs.le
  have hval : (vx / Real.sqrt (vx * vx + vy * vy) * PLAYER_SPEED) ^ 2
      + (vy / Real.sqrt (vx * vx + vy * vy) * PLAYER_SPEED) ^ 2
      = PLAYER_SPEED ^ 2 := by
    have hm : Real.sqrt (vx * vx + vy * vy) ≠ 0 := ne_of_gt hmag
    field_simp
    ring_nf
  rw [hval]
  exact Real.sqrt_sq (by norm_num [PLAYER_SPEED])

theorem velocity_normalization_witness :
    ¬ (intentVX ⟨true, false, false, false⟩ = 0
        ∧ intentVY ⟨true, false, false, false⟩ = 0)
    ∧ Real.sqrt ((applyIntent ⟨true, false, false, false⟩).1 ^ 2
        + (applyIntent ⟨true, false, false, false⟩).2 ^ 2) = PLAYER_SPEED := by
  have h : ¬ (intentVX ⟨true, false, false, false⟩ = 0
      ∧ intentVY ⟨true, false, false, false⟩ = 0) := by
    norm_num [intentVX]
  exact ⟨h, (velocity_normalization _).1 h⟩

/-- C9: at the failing input, the code re-binds the stored address. The
player in `w9` already has address `addrA`; processing a further input
message that arrives from `addrB` overwrites the stored address with
`addrB` instead of retaining the first-seen `addrA`. -/
theorem addr_rebinding_at_failing_input :
    (apply_input w9 (some ⟨"input", some 1, some ⟨false, false, false, false⟩⟩)
        addrB 7).players.map Player.addr = [some addrB]
    ∧ addrB ≠ addrA := by
  constructor
  · have hfind : w9.players.find? (fun p => p.id == 1) = some p9 := by
      simp [w9, p9, mkPlayer, List.find?]
    simp [apply_input, hfind, w9, p9, mkPlayer, updatePlayer]
  · simp [addrA, addrB]

/-- C10: a decodable "input" message for a known player with no intent
field is not discarded: it is applied as the all-false intent, zeroing
the velocity exactly, recording the sender address, and stamping the
last-input time. -/
theorem missing_intent_applied_as_zero (w : ServerState) (pid : Nat)
    (addr : Addr) (now : ℝ) (hp : ∃ p ∈ w.players, p.id = pid) :
    apply_input w (some ⟨"input", some pid, none⟩) addr now
      = { w with players := w.players.map (fun p =>
            if p.id = pid then
              { p with addr := some addr, vx := 0, vy := 0,
                       last_input_time := now }
            else p) } := by
  have hfind : (w.players.find? (fun p => p.id == pid)).isSome := by
    rw [List.find?_isSome]
    obtain ⟨p, hpm, hpe⟩ := hp
    exact ⟨p, hpm, by simp [hpe]⟩
  obtain ⟨q, hq⟩ := Option.isSome_iff_exists.mp hfind
  have hz : applyIntent ⟨false, false, false, false⟩ = (0, 0) :=
    applyIntent_of_zero_sums _ (by norm_num [intentVX]) (by norm_num [intentVY])
  simp only [apply_input, hq]
  norm_num
  intro p _
  by_cases hid : p.id = pid
  · simp [hid, updatePlayer, hz]
  · simp [hid]

theorem missing_intent_applied_as_zero_witness :
    (∃ p ∈ w8.players, p.id = 1)
    ∧ apply_input w8 (some ⟨"input", some 1, none⟩) addrA 3
      = { w8 with players := w8.players.map (fun p =>
            if p.id = 1 then
              { p with addr := some addrA, vx := 0, vy := 0,
                       last_input_time := 3 }
            else p) } := by
  have h : ∃ p ∈ w8.players, p.id = 1 :=
    ⟨mkPlayer 1 100 100, by simp [w8], rfl⟩
  exact ⟨h, missing_intent_applied_as_zero w8 1 addrA 3 h⟩

/-- A found bracketing pair really brackets the render time. -/
theorem findBracket_some_bracket (rt : ℚ) :
    ∀ (l : List Snap) (s0 s1 : Snap), findBracket rt l = some (s0, s1) →
      s0.time ≤ rt ∧ rt ≤ s1.time := by
  intro l
  induction l with
  | nil => intro s0 s1 h; simp [findBracket] at h
  | cons a t ih =>
    intro s0 s1 h
    cases t with
    | nil => simp [findBracket] at h
    | cons b t2 =>
      by_cases hc : a.time ≤ rt ∧ rt ≤ b.time
      · rw [findBracket, if_pos hc] at h
        obtain ⟨rfl, rfl⟩ : a = s0 ∧ b = s1 := by
          have := Option.some.inj h
          exact ⟨congrArg Prod.fst this, congrArg Prod.snd this⟩
        exact hc
      · rw [findBracket, if_neg hc] at h
        exact ih s0 s1 h

/-- A found bracketing pair implies the buffer is nonempty. -/
theorem getLast?_of_findBracket (rt : ℚ) (l : List Snap) (pr : Snap × Snap)
    (h : findBracket rt l = some pr) : ∃ s, l.getLast? = some s := by
  cases l with
  | nil => simp [findBracket] at h
  | cons a t =>
    exact ⟨(a :: t).getLast (by simp), List.getLast?_eq_getLast _ _⟩

/-- C3: whenever the interpolator finds a bracketing pair `(s0, s1)`,
the render time lies between their timestamps and the output is the
per-player convex blend by the clamped alpha (defined as 1 when the two
timestamps coincide), with the score and the coin list taken from `s1`
and a player absent from `s1` falling back to its `s0` entry. -/
theorem interpolation_blend (snaps : List Snap) (rt : ℚ) (s0 s1 : Snap)
    (h : findBracket rt snaps = some (s0, s1)) :
    s0.time ≤ rt ∧ rt ≤ s1.time
    ∧ get_interpolated_state snaps rt = (interpPair s0 s1 rt, s1.coins)
    ∧ interpPair s0 s1 rt
      = s0.players.map (fun e =>
          (e.1,
           { x := e.2.x * (1 - max 0 (min 1 (if s0.time < s1.time then
                    (rt - s0.time) / (s1.time - s0.time) else 1)))
                + ((lookupPid s1.players e.1).getD e.2).x
                  * max 0 (min 1 (if s0.time < s1.time then
                    (rt - s0.time) / (s1.time - s0.time) else 1)),
             y := e.2.y * (1 - max 0 (min 1 (if s0.time < s1.time then
                    (rt - s0.time) / (s1.time - s0.time) else 1)))
                + ((lookupPid s1.players e.1).getD e.2).y
                  * max 0 (min 1 (if s0.time < s1.time then
                    (rt - s0.time) / (s1.time - s0.time) else 1)),
             score := ((lookupPid s1.players e.1).getD e.2).score })) := by
  obtain ⟨hb1, hb2⟩ := findBracket_some_bracket rt snaps s0 s1 h
  obtain ⟨slast, hl⟩ := getLast?_of_findBracket rt snaps _ h
  refine ⟨hb1, hb2, ?_, rfl⟩
  simp [get_interpolated_state, hl, h]

/-- The bracket scan finds the example pair of the claim. -/
theorem findBracket_example :
    findBracket (3 / 10) [snap0Ex, snap1Ex] = some (snap0Ex, snap1Ex) := by
  rw [findBracket, if_pos]
  constructor <;> norm_num [snap0Ex, snap1Ex]

theorem interpolation_blend_witness :
    findBracket (3 / 10) [snap0Ex, snap1Ex] = some (snap0Ex, snap1Ex)
    ∧ get_interpolated_state [snap0Ex, snap1Ex] (3 / 10)
        = (interpPair snap0Ex snap1Ex (3 / 10), snap1Ex.coins)
    ∧ interpPair snap0Ex snap1Ex (3 / 10) = [(1, ⟨3, 0, 5⟩)] :=
  ⟨findBracket_example,
   (interpolation_blend [snap0Ex, snap1Ex] (3 / 10) snap0Ex snap1Ex
     findBracket_example).2.2.1,
   by
     norm_num [interpPair, snap0Ex, snap1Ex, lookupPid, List.find?,
       min_def, max_def]⟩

/-- C4: the interpolator is total and never divides: the empty buffer
yields the empty result, a single-entry buffer and, more generally, any
buffer without a bracketing pair yield the most recent snapshot
verbatim, and a bracketing pair with equal timestamps uses alpha = 1
(picking the `s1` entry, with `s0` fallback) instead of dividing. -/
theorem interpolation_fallback_total (rt : ℚ) :
    get_interpolated_state [] rt = ([], [])
    ∧ (∀ s : Snap, get_interpolated_state [s] rt = (s.players, s.coins))
    ∧ (∀ (snaps : List Snap) (slast : Snap), snaps.getLast? = some slast →
        findBracket rt snaps = none →
        get_interpolated_state snaps rt = (slast.players, slast.coins))
    ∧ (∀ (snaps : List Snap) (s0 s1 : Snap),
        findBracket rt snaps = some (s0, s1) → s1.time = s0.time →
        get_interpolated_state snaps rt
          = (s0.players.map (fun e =>
              (e.1, (lookupPid s1.players e.1).getD e.2)),
             s1.coins)) := by
  refine ⟨rfl, ?_, ?_, ?_⟩
  · intro s
    simp [get_interpolated_state, findBracket]
  · intro snaps slast hl hn
    simp [get_interpolated_state, hl, hn]
  · intro snaps s0 s1 h ht
    obtain ⟨slast, hl⟩ := getLast?_of_findBracket rt snaps _ h
    have hnlt : ¬ (s0.time < s1.time) := by rw [ht]; exact lt_irrefl _
    simp only [get_interpolated_state, hl, h]
    refine congrArg (fun z => (z, s1.coins)) ?_
    simp only [interpPair, if_neg hnlt]
    norm_num

theorem interpolation_fallback_total_witness :
    ([snapA].getLast? = some snapA)
    ∧ findBracket 5 [snapA] = none
    ∧ get_interpolated_state [snapA] 5 = (snapA.players, snapA.coins) :=
  ⟨rfl, by simp [findBracket],
   (interpolation_fallback_total 5).2.2.1 [snapA] snapA rfl
     (by simp [findBracket])⟩

/-! ## Collision pass lemmas (for C1) -/

/-- Unfolding equation of the inner loop at an overlapping head. -/
theorem collideCoin_cons_pos (q : Player) (rest : List Player) (c : Coin)
    (hq : Overlaps q c) :
    collideCoin (q :: rest) c = ({ q with score := q.score + 1 } :: rest, true) := by
  simp only [collideCoin, if_pos hq]

/-- Unfolding equation of the inner loop at a non-overlapping head. -/
theorem collideCoin_cons_neg (q : Player) (rest : List Player) (c : Coin)
    (hq : ¬ Overlaps q c) :
    collideCoin (q :: rest) c
      = (q :: (collideCoin rest c).1, (collideCoin rest c).2) := by
  simp only [collideCoin, if_neg hq]

/-- The inner player loop only changes scores, never positions. -/
theorem collideCoin_map_pos (ps : List Player) (c : Coin) :
    ((collideCoin ps c).1).map pos = ps.map pos := by
  induction ps with
  | nil => simp [collideCoin]
  | cons p rest ih =>
    by_cases h : Overlaps p c
    · rw [collideCoin_cons_pos p rest c h]
      simp [pos]
    · rw [collideCoin_cons_neg p rest c h]
      simp [pos, ih]

/-- `Hit` only looks at positions. -/
theorem hit_mono {ps qs : List Player} (h : ps.map pos = qs.map pos)
    (c : Coin) : Hit ps c → Hit qs c := by
  rintro ⟨p, hp, ho⟩
  have hm : pos p ∈ qs.map pos := h ▸ List.mem_map_of_mem pos hp
  obtain ⟨q, hq, he⟩ := List.mem_map.mp hm
  refine ⟨q, hq, ?_⟩
  have hx : q.x = p.x := congrArg Prod.fst he
  have hy : q.y = p.y := congrArg Prod.snd he
  unfold Overlaps at ho ⊢
  rw [hx, hy]
  exact ho

theorem hit_congr {ps qs : List Player} (h : ps.map pos = qs.map pos)
    (c : Coin) : Hit ps c ↔ Hit qs c :=
  ⟨hit_mono h c, hit_mono h.symm c⟩

/-- The consumed flag is set iff some player overlaps the coin. -/
theorem collideCoin_snd (ps : List Player) (c : Coin) :
    (collideCoin ps c).2 = true ↔ Hit ps c := by
  induction ps with
  | nil => simp [collideCoin, Hit]
  | cons p rest ih =>
    by_cases h : Overlaps p c
    · rw [collideCoin_cons_pos p rest c h]
      exact iff_of_true rfl ⟨p, List.mem_cons_self p rest, h⟩
    · rw [collideCoin_cons_neg p rest c h]
      show (collideCoin rest c).2 = true ↔ Hit (p :: rest) c
      rw [ih]
      unfold Hit
      constructor
      · rintro ⟨q, hq, ho⟩
        exact ⟨q, List.mem_cons_of_mem p hq, ho⟩
      · rintro ⟨q, hq, ho⟩
        rcases List.mem_cons.mp hq with rfl | hq2
        · exact absurd ho h
        · exact ⟨q, hq2, ho⟩

/-- The first overlapping player in iteration order — and only that
player — receives exactly one point, and the loop reports the hit. -/
theorem collideCoin_first (l₁ l₂ : List Player) (p : Player) (c : Coin)
    (hfirst : ∀ q ∈ l₁, ¬ Overlaps q c) (hp : Overlaps p c) :
    collideCoin (l₁ ++ p :: l₂) c
      = (l₁ ++ { p with score := p.score + 1 } :: l₂, true) := by
  induction l₁ with
  | nil =>
    show collideCoin (p :: l₂) c = ({ p with score := p.score + 1 } :: l₂, true)
    exact collideCoin_cons_pos p l₂ c hp
  | cons q t ih =>
    have hq : ¬ Overlaps q c := hfirst q (List.mem_cons_self q t)
    have ht : ∀ r ∈ t, ¬ Overlaps r c :=
      fun r hr => hfirst r (List.mem_cons_of_mem q hr)
    show collideCoin (q :: (t ++ p :: l₂)) c
      = (q :: (t ++ { p with score := p.score + 1 } :: l₂), true)
    rw [collideCoin_cons_neg q _ c hq, ih ht]

/-- One coin adds exactly one point in total when consumed, zero when
not. -/
theorem collideCoin_totalScore (ps : List Player) (c : Coin) :
    totalScore (collideCoin ps c).1
      = totalScore ps + (if (collideCoin ps c).2 = true then 1 else 0) := by
  induction ps with
  | nil => simp [collideCoin, totalScore]
  | cons p rest ih =>
    by_cases h : Overlaps p c
    · rw [collideCoin_cons_pos p rest c h]
      simp [totalScore]
      omega
    · rw [collideCoin_cons_neg p rest c h]
      cases hb : (collideCoin rest c).2 <;>
        simp [totalScore, hb] at ih ⊢ <;> omega

/-- Characterization of the outer coin fold: positions are preserved,
the total score grows by the number of hit coins, and the `to_remove`
accumulator collects exactly the hit coins in order. `ps0` is the
player list at the start of the pass; hits are judged against it since
positions never change mid-pass. -/
theorem collisionFold (coins : List Coin) :
    ∀ (ps0 ps : List Player) (tr : List Coin), ps.map pos = ps0.map pos →
      ((coins.foldl collisionStep (ps, tr)).1.map pos = ps0.map pos
       ∧ totalScore (coins.foldl collisionStep (ps, tr)).1
          = totalScore ps + coins.countP (fun d => decide (Hit ps0 d))
       ∧ (coins.foldl collisionStep (ps, tr)).2
          = tr ++ coins.filter (fun d => decide (Hit ps0 d))) := by
  induction coins with
  | nil =>
    intro ps0 ps tr h
    refine ⟨by simpa using h, by simp, by simp⟩
  | cons c cs ih =>
    intro ps0 ps tr h
    have hpos : ((collideCoin ps c).1).map pos = ps0.map pos :=
      (collideCoin_map_pos ps c).trans h
    have hhit : (collideCoin ps c).2 = true ↔ Hit ps0 c :=
      (collideCoin_snd ps c).trans (hit_congr h c)
    have hstep : collisionStep (ps, tr) c
        = ((collideCoin ps c).1,
           if (collideCoin ps c).2 then tr ++ [c] else tr) := rfl
    obtain ⟨ih1, ih2, ih3⟩ := ih ps0 (collideCoin ps c).1
        (if (collideCoin ps c).2 then tr ++ [c] else tr) hpos
    rw [List.foldl_cons, hstep]
    refine ⟨ih1, ?_, ?_⟩
    · rw [ih2, collideCoin_totalScore ps c, List.countP_cons]
      cases hb : (collideCoin ps c).2
      · have hnc : ¬ Hit ps0 c := by
          rw [← hhit, hb]; simp
        simp only [hb, hnc, decide_False, if_false]
        omega
      · have hc2 : Hit ps0 c := hhit.mp hb
        simp only [hb, hc2, decide_True, if_true]
        omega
    · rw [ih3]
      cases hb : (collideCoin ps c).2
      · have hnc : ¬ Hit ps0 c := by
          rw [← hhit, hb]; simp
        simp [hb, List.filter_cons, hnc]
      · have hc2 : Hit ps0 c := hhit.mp hb
        simp [hb, List.filter_cons, hc2]

/-- Erasing each member of `tr` from a duplicate-free list filters out
exactly the members of `tr`. -/
theorem foldl_erase_filter :
    ∀ (tr l : List Coin), l.Nodup →
      tr.foldl (fun cs c => cs.erase c) l
        = l.filter (fun a => decide (a ∉ tr)) := by
  intro tr
  induction tr with
  | nil => intro l h; simp
  | cons c tr ih =>
    intro l h
    rw [List.foldl_cons, ih (l.erase c) (h.erase c),
        List.Nodup.erase_eq_filter h c, List.filter_filter]
    apply List.filter_congr
    intro a _
    simp only [List.mem_cons, not_or, decide_not]
    by_cases h1 : a = c <;> by_cases h2 : a ∈ tr <;> simp [h1, h2]

theorem foldl_erase_subset :
    ∀ (tr l : List Coin), tr.foldl (fun cs c => cs.erase c) l ⊆ l := by
  intro tr
  induction tr with
  | nil => intro l; simp
  | cons c tr ih =>
    intro l
    rw [List.foldl_cons]
    exact (ih (l.erase c)).trans (List.erase_subset ..)

theorem collisionPass_players_score (ps : List Player) (coins : List Coin) :
    totalScore (collisionPass ps coins).1
      = totalScore ps + coins.countP (fun d => decide (Hit ps d)) := by
  simpa [collisionPass] using (collisionFold coins ps ps [] rfl).2.1

/-- The coins left after the pass are exactly the non-hit coins, in
their original order; removal happens only after the full pass, so the
set of consumed coins is judged against the pre-pass positions. -/
theorem collisionPass_coins_filter (ps : List Player) (coins : List Coin)
    (hnd : coins.Nodup) :
    (collisionPass ps coins).2 = coins.filter (fun d => decide (¬ Hit ps d)) := by
  have h3 := (collisionFold coins ps ps [] rfl).2.2
  have h2 : (collisionPass ps coins).2
      = (coins.filter (fun d => decide (Hit ps d))).foldl
          (fun cs c => cs.erase c) coins := by
    simp only [collisionPass]
    rw [h3]
    simp
  rw [h2, foldl_erase_filter _ _ hnd]
  apply List.filter_congr
  intro a ha
  by_cases hh : Hit ps a
  · simp [List.mem_filter, ha, hh]
  · simp [List.mem_filter, ha, hh]

theorem collisionPass_coins_subset (ps : List Player) (coins : List Coin) :
    (collisionPass ps coins).2 ⊆ coins := by
  simp only [collisionPass]
  exact foldl_erase_subset _ _

theorem spawnStep_cases (w : ServerState) (dt cx cy : ℝ) :
    ((spawnStep w dt cx cy).coins = w.coins
      ∧ (spawnStep w dt cx cy).coin_next_id = w.coin_next_id)
    ∨ ((spawnStep w dt cx cy).coins = w.coins ++ [⟨w.coin_next_id, cx, cy⟩]
      ∧ (spawnStep w dt cx cy).coin_next_id = w.coin_next_id + 1) := by
  simp only [spawnStep]
  split
  · right; exact ⟨rfl, rfl⟩
  · left; exact ⟨rfl, rfl⟩

/-- A coin id that is below the id counter and absent from the world
stays absent across any further tick: the pass only removes coins and
the spawner only introduces fresh ids. -/
theorem tick_preserves_coin_absence (cid : Nat) (w : ServerState)
    (dt cx cy : ℝ)
    (hbound : ∀ d ∈ w.coins, d.id < w.coin_next_id)
    (habs : ∀ d ∈ w.coins, d.id ≠ cid)
    (hlt : cid < w.coin_next_id) :
    (∀ d ∈ (tick w dt cx cy).coins, d.id < (tick w dt cx cy).coin_next_id)
    ∧ (∀ d ∈ (tick w dt cx cy).coins, d.id ≠ cid)
    ∧ cid < (tick w dt cx cy).coin_next_id := by
  have hni : (tick w dt cx cy).coin_next_id
      = (spawnStep (integrateAll w dt) dt cx cy).coin_next_id := rfl
  have hsub : (tick w dt cx cy).coins
      ⊆ (spawnStep (integrateAll w dt) dt cx cy).coins :=
    collisionPass_coins_subset _ _
  rcases spawnStep_cases (integrateAll w dt) dt cx cy
    with ⟨hc, hn⟩ | ⟨hc, hn⟩
  · rw [hni, hn]
    have hsub2 : (tick w dt cx cy).coins ⊆ w.coins := by
      intro d hd
      have hm := hsub hd
      rw [hc] at hm
      exact hm
    exact ⟨fun d hd => hbound d (hsub2 hd), fun d hd => habs d (hsub2 hd), hlt⟩
  · rw [hni, hn]
    have hsub2 : ∀ d ∈ (tick w dt cx cy).coins,
        d ∈ w.coins ∨ d = ⟨w.coin_next_id, cx, cy⟩ := by
      intro d hd
      have hm := hsub hd
      rw [hc] at hm
      rcases List.mem_append.mp hm with h1 | h1
      · exact Or.inl h1
      · exact Or.inr (by simpa using h1)
    refine ⟨?_, ?_, Nat.lt_succ_of_lt hlt⟩
    · intro d hd
      rcases hsub2 d hd with h1 | h1
      · exact Nat.lt_succ_of_lt (hbound d h1)
      · rw [h1]; exact Nat.lt_succ_self _
    · intro d hd
      rcases hsub2 d hd with h1 | h1
      · exact habs d h1
      · rw [h1]
        simpa using Nat.ne_of_gt hlt

/-- C1: when at least one player overlaps a coin, the inner loop gives
exactly one point to the first overlapping player in iteration order;
across the whole pass the total score grows by exactly the number of
consumed coins; the coins surviving the pass are exactly the non-hit
coins — removal happens only after the full pass — so the hit coin is
gone; and once a coin id is absent (below the id counter), every later
tick keeps it absent. -/
theorem coin_consumed_exactly_once
    (ps l₁ l₂ : List Player) (p : Player) (c : Coin) (coins : List Coin)
    (hps : ps = l₁ ++ p :: l₂)
    (hfirst : ∀ q ∈ l₁, ¬ Overlaps q c)
    (hp : Overlaps p c)
    (hmem : c ∈ coins) (hnd : coins.Nodup) :
    collideCoin ps c = (l₁ ++ { p with score := p.score + 1 } :: l₂, true)
    ∧ totalScore (collisionPass ps coins).1
        = totalScore ps + coins.countP (fun d => decide (Hit ps d))
    ∧ (collisionPass ps coins).2 = coins.filter (fun d => decide (¬ Hit ps d))
    ∧ c ∉ (collisionPass ps coins).2
    ∧ (∀ (w : ServerState) (dt cx cy : ℝ),
        (∀ d ∈ w.coins, d.id < w.coin_next_id) →
        (∀ d ∈ w.coins, d.id ≠ c.id) → c.id < w.coin_next_id →
        ((∀ d ∈ (tick w dt cx cy).coins,
            d.id < (tick w dt cx cy).coin_next_id)
         ∧ (∀ d ∈ (tick w dt cx cy).coins, d.id ≠ c.id)
         ∧ c.id < (tick w dt cx cy).coin_next_id)) := by
  subst hps
  have hHit : Hit (l₁ ++ p :: l₂) c := ⟨p, by simp, hp⟩
  refine ⟨collideCoin_first l₁ l₂ p c hfirst hp,
          collisionPass_players_score _ coins,
          collisionPass_coins_filter _ coins hnd, ?_, ?_⟩
  · rw [collisionPass_coins_filter _ coins hnd]
    intro hcmem
    rw [List.mem_filter] at hcmem
    exact absurd hHit (by simpa using hcmem.2)
  · exact fun w dt cx cy h1 h2 h3 =>
      tick_preserves_coin_absence c.id w dt cx cy h1 h2 h3

theorem coin_consumed_exactly_once_witness :
    (∀ q ∈ [pFar], ¬ Overlaps q cW)
    ∧ Overlaps pNear cW
    ∧ cW ∈ [cW] ∧ ([cW] : List Coin).Nodup
    ∧ collideCoin [pFar, pNear, pAlso] cW
        = ([pFar, { pNear with score := pNear.score + 1 }, pAlso], true)
    ∧ cW ∉ (collisionPass [pFar, pNear, pAlso] [cW]).2 := by
  have h1 : ∀ q ∈ [pFar], ¬ Overlaps q cW := by
    intro q hq
    rw [List.mem_singleton] at hq
    subst hq
    unfold Overlaps
    norm_num [pFar, cW, mkPlayer, PLAYER_RADIUS, COIN_RADIUS]
  have h2 : Overlaps pNear cW := by
    unfold Overlaps
    norm_num [pNear, cW, mkPlayer, PLAYER_RADIUS, COIN_RADIUS]
  have h5 := coin_consumed_exactly_once [pFar, pNear, pAlso] [pFar] [pAlso]
      pNear cW [cW] rfl h1 h2 (List.mem_singleton_self cW)
      (List.nodup_singleton cW)
  exact ⟨h1, h2, List.mem_singleton_self cW, List.nodup_singleton cW,
         h5.1, h5.2.2.2.1⟩

end CoinGame
